import Mathlib

/-!
# Verification of the SSOO memory-partitioning simulator core

A shallow embedding of the allocator core of `script.js`: the static
fixed-partition manager, the dynamic variable-partition manager with
first/best/worst fit selection and optional coalescing, and the
controller-level process creation. JS numbers that matter here are
non-negative integers (byte counts and addresses), modelled as `Nat`;
process-size validation at the controller boundary also has to handle
`NaN` and the infinities, modelled by an explicit sum type `JSNum`.
Arrays become `List`s; in-place mutation becomes explicit state passing.
-/

namespace MemSim

/-- `TOTAL_MEMORY = 16 * 1024 * 1024` (16 MiB), from `script.js`. -/
def TOTAL_MEMORY : Nat := 16 * 1024 * 1024

/-- `OS_MEMORY_SIZE = 2 * 1024 * 1024` (2 MiB reserved for the OS). -/
def OS_MEMORY_SIZE : Nat := 2 * 1024 * 1024

/-- The `ProcessControlBlock` class: id, requested size (bytes), allocation
flag, and `partitionId` (partition id in static mode, block start address in
dynamic mode; `null` becomes `none`).  The display name is derived from the
id and plays no role in the allocator. -/
structure Process where
  id : Nat
  size : Nat
  allocated : Bool
  partitionId : Option Nat
deriving DecidableEq, Repr

/-- A region of the static manager's `memory` array: fixed partition with an
index `id`, start `address`, `size` in bytes, `free` flag and owning
`processId` (`null` becomes `none`). -/
structure Partition where
  id : Nat
  address : Nat
  size : Nat
  free : Bool
  processId : Option Nat
deriving DecidableEq, Repr

/-- A region of the dynamic manager's `memory` array: start `address`,
`size` in bytes, `free` flag and owning `processId`. -/
structure Block where
  address : Nat
  size : Nat
  free : Bool
  processId : Option Nat
deriving DecidableEq, Repr

/-- The `processes.find(p => p.id === processId)` update shared by both
managers' `deallocate`: clear the allocation flag and backing reference of
the first process with the given id. -/
def clearProc : List Process → Nat → List Process
  | [], _ => []
  | p :: rest, pid =>
    if p.id = pid then { p with allocated := false, partitionId := none } :: rest
    else p :: clearProc rest pid

/-! ## Static memory manager -/

/-- The accumulation in `StaticMemoryManager`'s constructor:
`partitionSizes.map((size, index) => ...)` threading `currentAddress`. -/
def buildPartitions : List Nat → Nat → Nat → List Partition
  | [], _, _ => []
  | s :: rest, idx, addr =>
    { id := idx, address := addr, size := s, free := true, processId := none }
      :: buildPartitions rest (idx + 1) (addr + s)

/-- `StaticMemoryManager` initial memory: fixed partitions of
1, 2, 4, 8, 1 MiB laid out starting at `OS_MEMORY_SIZE`. -/
def initialStaticMemory : List Partition :=
  buildPartitions (([1, 2, 4, 8, 1].map (fun s => s * 1024 * 1024))) 0 OS_MEMORY_SIZE

/-- `StaticMemoryManager.allocate`: first-fit scan; the first free partition
with `partition.size >= process.size` is marked occupied and owned by the
process, which is flagged allocated with `partitionId` set to the
partition's id.  Returns the new memory, the updated process, and the
success flag (`false` models the alert-and-`return false` path). -/
def staticAllocate : List Partition → Process → List Partition × Process × Bool
  | [], p => ([], p, false)
  | q :: rest, p =>
    if q.free && p.size ≤ q.size then
      ({ q with free := false, processId := some p.id } :: rest,
       { p with allocated := true, partitionId := some q.id }, true)
    else
      let r := staticAllocate rest p
      (q :: r.1, r.2.1, r.2.2)

/-- Clearing step of `StaticMemoryManager.deallocate`: mutate the first
partition whose `processId` matches (the one `find` returns). -/
def clearFirstPartition : List Partition → Nat → List Partition
  | [], _ => []
  | q :: rest, pid =>
    if q.processId = some pid then { q with free := true, processId := none } :: rest
    else q :: clearFirstPartition rest pid

/-- `StaticMemoryManager.deallocate(processId)`: if some partition is owned
by `processId`, free it and clear the matching process's allocation state;
otherwise do nothing. -/
def staticDeallocate (mem : List Partition) (procs : List Process) (pid : Nat) :
    List Partition × List Process :=
  match mem.find? (fun q => q.processId == some pid) with
  | none => (mem, procs)
  | some _ => (clearFirstPartition mem pid, clearProc procs pid)

/-! ## Dynamic memory manager -/

/-- The `dynamic-algorithm` selector: `'first' | 'best' | 'worst'`. -/
inductive FitAlg where
  | first
  | best
  | worst
deriving DecidableEq, Repr

/-- `DynamicMemoryManager` initial memory: one free block covering
everything above the OS prefix. -/
def dynInitialMemory (totalSize : Nat) : List Block :=
  [{ address := OS_MEMORY_SIZE, size := totalSize - OS_MEMORY_SIZE,
     free := true, processId := none }]

/-- `_findFirstFit` (`memory.findIndex`), with the running index made
explicit. -/
def firstFitGo (size : Nat) : List Block → Nat → Option Nat
  | [], _ => none
  | b :: rest, i =>
    if b.free && size ≤ b.size then some i else firstFitGo size rest (i + 1)

/-- `DynamicMemoryManager._findFirstFit(size)`: index of the first free
block with `block.size >= size` (`-1` becomes `none`). -/
def findFirstFit (mem : List Block) (size : Nat) : Option Nat :=
  firstFitGo size mem 0

/-- The `forEach` loop of `_findBestFit`: the accumulator is
`none` for the initial `minDiff = Infinity, bestIndex = -1` state, and
`some (bestIndex, minDiff)` afterwards; a qualifying block wins iff its
`diff` is strictly below the current minimum. -/
def bestStep (size : Nat) (b : Block) (i : Nat) :
    Option (Nat × Nat) → Option (Nat × Nat) :=
  fun acc =>
    if b.free && size ≤ b.size then
      match acc with
      | none => some (i, b.size - size)
      | some (bi, md) =>
        if b.size - size < md then some (i, b.size - size) else some (bi, md)
    else acc

def bestFitGo (size : Nat) : List Block → Nat → Option (Nat × Nat) → Option (Nat × Nat)
  | [], _, acc => acc
  | b :: rest, i, acc => bestFitGo size rest (i + 1) (bestStep size b i acc)

/-- `DynamicMemoryManager._findBestFit(size)`. -/
def findBestFit (mem : List Block) (size : Nat) : Option Nat :=
  (bestFitGo size mem 0 none).map Prod.fst

/-- The `forEach` loop of `_findWorstFit`: `none` models the initial
`maxDiff = -Infinity, worstIndex = -1` state (every qualifying diff beats
`-Infinity`); a qualifying block wins iff its `diff` is strictly above the
current maximum. -/
def worstStep (size : Nat) (b : Block) (i : Nat) :
    Option (Nat × Nat) → Option (Nat × Nat) :=
  fun acc =>
    if b.free && size ≤ b.size then
      match acc with
      | none => some (i, b.size - size)
      | some (bi, md) =>
        if md < b.size - size then some (i, b.size - size) else some (bi, md)
    else acc

def worstFitGo (size : Nat) : List Block → Nat → Option (Nat × Nat) → Option (Nat × Nat)
  | [], _, acc => acc
  | b :: rest, i, acc => worstFitGo size rest (i + 1) (worstStep size b i acc)

/-- `DynamicMemoryManager._findWorstFit(size)`. -/
def findWorstFit (mem : List Block) (size : Nat) : Option Nat :=
  (worstFitGo size mem 0 none).map Prod.fst

/-- The `if/else if` dispatch on `this.fitAlgorithm` in
`DynamicMemoryManager.allocate`. -/
def fitIndex (fit : FitAlg) (mem : List Block) (size : Nat) : Option Nat :=
  match fit with
  | .first => findFirstFit mem size
  | .best => findBestFit mem size
  | .worst => findWorstFit mem size

/-- `DynamicMemoryManager.allocate(process)`: pick a block index by the
configured fit; on success shrink that block in place to the requested size
and mark it occupied (`memory[blockIndex]` mutation = `List.set`), then, if
a positive remainder is left, `splice` a new free block in right after it.
The inner `none` branch of the lookup is unreachable because every fit
function returns an in-bounds index. -/
def dynAllocate (fit : FitAlg) (mem : List Block) (p : Process) :
    List Block × Process × Bool :=
  match fitIndex fit mem p.size with
  | none => (mem, p, false)
  | some i =>
    match mem.get? i with
    | none => (mem, p, false)
    | some b =>
      let remaining := b.size - p.size
      let occ : Block :=
        { address := b.address, size := p.size, free := false, processId := some p.id }
      let mem1 := mem.set i occ
      let mem2 :=
        if 0 < remaining then
          mem1.take (i + 1)
            ++ { address := b.address + p.size, size := remaining,
                 free := true, processId := none } :: mem1.drop (i + 1)
        else mem1
      (mem2, { p with allocated := true, partitionId := some b.address }, true)

/-- Clearing step of `DynamicMemoryManager.deallocate`: mutate the first
block whose `processId` matches. -/
def clearFirstBlock : List Block → Nat → List Block
  | [], _ => []
  | b :: rest, pid =>
    if b.processId = some pid then { b with free := true, processId := none } :: rest
    else b :: clearFirstBlock rest pid

/-- The loop body of `DynamicMemoryManager.coalesce`: the indexed loop with
`i--` backtrack is a left-to-right scan that keeps re-examining a merged
block against its new right neighbour.  `fuel` makes the recursion
structural; every iteration either keeps a block or removes one, so fuel
equal to the list length is never exhausted. -/
def coalesceGo : Nat → List Block → List Block
  | 0, l => l
  | _ + 1, [] => []
  | _ + 1, [b] => [b]
  | fuel + 1, b1 :: b2 :: rest =>
    if b1.free && b2.free then
      coalesceGo fuel ({ b1 with size := b1.size + b2.size } :: rest)
    else
      b1 :: coalesceGo fuel (b2 :: rest)

/-- `DynamicMemoryManager.coalesce`. -/
def coalesce (l : List Block) : List Block := coalesceGo l.length l

/-- `DynamicMemoryManager.deallocate(processId)`: if some block is owned by
`processId`, free it, clear the matching process's allocation state, and
coalesce when enabled; otherwise do nothing. -/
def dynDeallocate (coalesceEnabled : Bool) (mem : List Block)
    (procs : List Process) (pid : Nat) : List Block × List Process :=
  match mem.find? (fun b => b.processId == some pid) with
  | none => (mem, procs)
  | some _ =>
    let mem1 := clearFirstBlock mem pid
    (if coalesceEnabled then coalesce mem1 else mem1, clearProc procs pid)

/-! ## Controller-level process creation -/

/-- The JS number values relevant to `createProcess`'s validation:
`NaN`, the two infinities, and finite values (the finite sizes that occur
are integers). -/
inductive JSNum where
  | nan
  | posInf
  | negInf
  | fin (v : Int)
deriving DecidableEq, Repr

/-- `isNaN(x)`. -/
def jsIsNaN : JSNum → Bool
  | .nan => true
  | _ => false

/-- `x <= 0` with JS comparison semantics: any comparison with `NaN` is
false, `Infinity <= 0` is false, `-Infinity <= 0` is true. -/
def jsLeZero : JSNum → Bool
  | .nan => false
  | .posInf => false
  | .negInf => true
  | .fin v => v ≤ 0

/-- A registry entry as created by `createProcess` (the controller-level
view of `ProcessControlBlock`, whose size is a raw JS number). -/
structure SimProcess where
  id : Nat
  size : JSNum
  allocated : Bool
  partitionId : Option Nat
deriving DecidableEq, Repr

/-- The module-level mutable state `processes` and `nextProcessId`. -/
structure ControllerState where
  processes : List SimProcess
  nextProcessId : Nat
deriving DecidableEq, Repr

/-- `createProcess(sizeInBytes)`: reject when
`isNaN(sizeInBytes) || sizeInBytes <= 0` (returning `false` models the
alert-and-return path); otherwise push a fresh process with id
`nextProcessId++` onto the registry. -/
def createProcess (st : ControllerState) (sizeInBytes : JSNum) :
    ControllerState × Bool :=
  if jsIsNaN sizeInBytes || jsLeZero sizeInBytes then (st, false)
  else
    ({ processes := st.processes
        ++ [{ id := st.nextProcessId, size := sizeInBytes,
              allocated := false, partitionId := none }],
       nextProcessId := st.nextProcessId + 1 }, true)

/-! ## Spec-level predicates -/

/-- `covers lo hi l`: the regions of `l`, in list order, tile the address
range `[lo, hi)` exactly — each starts where the previous one ended, has
positive size, and the last one ends at `hi`.  This is the spec's region
coverage invariant (ordered, contiguous, non-overlapping, union = usable
space). -/
def covers : Nat → Nat → List Block → Bool
  | lo, hi, [] => lo == hi
  | lo, hi, b :: rest =>
    (b.address == lo) && decide (0 < b.size) && covers (lo + b.size) hi rest

/-- View a static partition list as plain regions, for stating the
coverage invariant uniformly. -/
def partitionBlocks (l : List Partition) : List Block :=
  l.map (fun q => { address := q.address, size := q.size, free := q.free,
                    processId := q.processId })

/-- No two list-adjacent blocks are both free (in any state satisfying the
coverage invariant, list-adjacent is the same as address-adjacent). -/
def noAdjFree : List Block → Bool
  | b1 :: b2 :: rest => !(b1.free && b2.free) && noAdjFree (b2 :: rest)
  | _ => true

/-- Free blocks carry no owner.  Holds in every reachable dynamic state. -/
def FreeClean (l : List Block) : Prop :=
  ∀ b ∈ l, b.free = true → b.processId = none

/-- The geometry of a partition (everything `StaticMemoryManager` never
mutates): id, address, size. -/
def partitionGeom (q : Partition) : Nat × Nat × Nat := (q.id, q.address, q.size)

/-- Dynamic-manager states reachable from the initial single free block by
`allocate` (of positive-size processes), `deallocate`, and `coalesce`,
with coalescing flag `c` and fit algorithm `fit`. -/
inductive DynReachable (c : Bool) (fit : FitAlg) : List Block → Prop where
  | init : DynReachable c fit (dynInitialMemory TOTAL_MEMORY)
  | alloc (mem : List Block) (p : Process) (hp : 0 < p.size)
      (h : DynReachable c fit mem) : DynReachable c fit (dynAllocate fit mem p).1
  | dealloc (mem : List Block) (procs : List Process) (pid : Nat)
      (h : DynReachable c fit mem) :
      DynReachable c fit (dynDeallocate c mem procs pid).1
  | coal (mem : List Block) (h : DynReachable c fit mem) :
      DynReachable c fit (coalesce mem)

/-! ## Coalescing lemmas -/

theorem coalesce_nil : coalesce [] = [] := rfl

theorem coalesce_single (b : Block) : coalesce [b] = [b] := rfl

theorem coalesce_cons_cons (b1 b2 : Block) (rest : List Block) :
    coalesce (b1 :: b2 :: rest) =
      if b1.free && b2.free then
        coalesce ({ b1 with size := b1.size + b2.size } :: rest)
      else
        b1 :: coalesce (b2 :: rest) := rfl

/-- `coalesce` never changes the head block's `free` flag (merging keeps the
left block's flags). -/
theorem coalesce_head (l : List Block) : ∀ b : Block,
    ∃ b' t, coalesce (b :: l) = b' :: t ∧ b'.free = b.free := by
  induction l with
  | nil => intro b; exact ⟨b, [], coalesce_single b, rfl⟩
  | cons c rest ih =>
    intro b
    rw [coalesce_cons_cons]
    by_cases h : b.free && c.free
    · simp only [h, if_true]
      obtain ⟨b', t, heq, hf⟩ := ih { b with size := b.size + c.size }
      exact ⟨b', t, heq, hf⟩
    · simp only [h, if_false]
      exact ⟨b, coalesce (c :: rest), rfl, rfl⟩

/-- Fixpoint property: after `coalesce` no two adjacent blocks are both
free. -/
theorem noAdjFree_coalesce (l : List Block) : noAdjFree (coalesce l) = true := by
  have key : ∀ n (l : List Block), l.length = n → noAdjFree (coalesce l) = true := by
    intro n
    induction n using Nat.strong_induction_on with
    | _ n ih =>
      intro l hl
      match l with
      | [] => simp [coalesce_nil, noAdjFree]
      | [b] => simp [coalesce_single, noAdjFree]
      | b1 :: b2 :: rest =>
        rw [coalesce_cons_cons]
        by_cases h : b1.free && b2.free
        · simp only [h, if_true]
          exact ih (rest.length + 1) (by simp [← hl]) _ rfl
        · simp only [h, if_false]
          obtain ⟨b2', t, heq, hf⟩ := coalesce_head rest b2
          rw [heq]
          have h2 : noAdjFree (b2' :: t) = true := by
            rw [← heq]; exact ih (rest.length + 1) (by simp [← hl]) _ rfl
          simp only [noAdjFree, Bool.and_eq_true, Bool.not_eq_true']
          refine ⟨?_, h2⟩
          rw [hf]
          exact Bool.eq_false_iff.mpr fun hc => h hc
  exact key l.length l rfl

/-- On a list with no adjacent free pair, `coalesce` is the identity. -/
theorem coalesce_of_noAdjFree : ∀ l : List Block, noAdjFree l = true → coalesce l = l := by
  intro l
  induction l with
  | nil => intro _; exact coalesce_nil
  | cons b rest ih =>
    intro h
    match rest, h with
    | [], _ => exact coalesce_single b
    | c :: rest', h =>
      simp only [noAdjFree, Bool.and_eq_true, Bool.not_eq_true'] at h
      rw [coalesce_cons_cons, h.1, if_neg (by simp)]
      rw [ih (by simpa [noAdjFree] using h.2)]

/-- **C5.** For every dynamic-allocator block list, after `coalesce` runs no
two adjacent blocks are both free (the cascade across three or more free
blocks included), and running `coalesce` again leaves the list unchanged. -/
theorem coalesce_fixpoint_and_idempotent (mem : List Block) :
    noAdjFree (coalesce mem) = true ∧ coalesce (coalesce mem) = coalesce mem :=
  ⟨noAdjFree_coalesce mem, coalesce_of_noAdjFree _ (noAdjFree_coalesce mem)⟩

/-! ## Controller-level process creation (C9) -/

/-- **C9 counterexample.** `createProcess` checks only
`isNaN(x) || x <= 0`, so the non-finite input `Infinity` passes validation
and registers a process — the claim says every non-finite input fails with
`InvalidProcessSize` and registers nothing. -/
theorem createProcess_posInf_registers :
    (createProcess ⟨[], 0⟩ JSNum.posInf).2 = true ∧
      (createProcess ⟨[], 0⟩ JSNum.posInf).1.processes ≠ [] := by
  decide

/-- **C9 (amended).** `createProcess` rejects exactly `NaN`, zero and
negative sizes, leaving the registry untouched; every other input — every
positive number, `Infinity` included — creates exactly one process whose id
is the current counter, appends it at the end of the registry, and bumps
the counter, so ids are unique and monotonically increasing and registry
order equals creation order. -/
theorem createProcess_validation_and_registry (st : ControllerState) (sz : JSNum) :
    ((sz = JSNum.nan ∨ jsLeZero sz = true) → createProcess st sz = (st, false)) ∧
    (sz ≠ JSNum.nan → jsLeZero sz = false →
      (createProcess st sz).2 = true ∧
      (createProcess st sz).1.processes
        = st.processes
            ++ [{ id := st.nextProcessId, size := sz,
                  allocated := false, partitionId := none }] ∧
      (createProcess st sz).1.nextProcessId = st.nextProcessId + 1 ∧
      ((∀ q ∈ st.processes, q.id < st.nextProcessId) →
        (∀ q ∈ (createProcess st sz).1.processes,
            q.id < (createProcess st sz).1.nextProcessId) ∧
        (∀ q ∈ st.processes, q.id ≠ st.nextProcessId))) := by
  constructor
  · intro h
    have hc : (jsIsNaN sz || jsLeZero sz) = true := by
      rcases h with h | h
      · subst h; rfl
      · simp [h]
    simp [createProcess, hc]
  · intro hn hle
    have hnan : jsIsNaN sz = false := by
      cases sz with
      | nan => exact absurd rfl hn
      | posInf => rfl
      | negInf => rfl
      | fin v => rfl
    have hc : (jsIsNaN sz || jsLeZero sz) = false := by simp [hnan, hle]
    refine ⟨by simp [createProcess, hc], by simp [createProcess, hc],
      by simp [createProcess, hc], ?_⟩
    intro hinv
    constructor
    · intro q hq
      simp only [createProcess, hc, Bool.false_eq_true, if_false,
        List.mem_append, List.mem_singleton] at hq ⊢
      rcases hq with hq | hq
      · exact Nat.lt_succ_of_lt (hinv q hq)
      · subst hq; exact Nat.lt_succ_self _
    · intro q hq
      exact Nat.ne_of_lt (hinv q hq)

/-- **C9 witness.** The amended spec at concrete inputs: size `5` is
registered with id `0`, `NaN` is rejected with the state unchanged. -/
theorem createProcess_validation_witness :
    (createProcess ⟨[], 0⟩ (JSNum.fin 5)).2 = true ∧
      (createProcess ⟨[], 0⟩ (JSNum.fin 5)).1.processes
        = [{ id := 0, size := JSNum.fin 5, allocated := false, partitionId := none }] ∧
      createProcess ⟨[], 0⟩ JSNum.nan = (⟨[], 0⟩, false) := by
  have h := createProcess_validation_and_registry ⟨[], 0⟩ (JSNum.fin 5)
  have hv := h.2 (by decide) (by decide)
  exact ⟨hv.1, by simpa using hv.2.1,
    (createProcess_validation_and_registry ⟨[], 0⟩ JSNum.nan).1 (Or.inl rfl)⟩

/-! ## Static allocator (C7) -/

/-- Failure case of the static first-fit scan: when no partition is free
and large enough, everything is returned unchanged with `false`. -/
theorem staticAllocate_of_none (mem : List Partition) (p : Process)
    (h : ∀ q ∈ mem, ¬(q.free = true ∧ p.size ≤ q.size)) :
    staticAllocate mem p = (mem, p, false) := by
  induction mem with
  | nil => rfl
  | cons q rest ih =>
    have hq : (q.free && decide (p.size ≤ q.size)) = false := by
      have := h q (List.mem_cons_self q rest)
      by_cases hf : q.free = true
      · simp [hf] at this ⊢; exact this
      · simp [Bool.eq_false_iff.mpr hf]
    simp only [staticAllocate, hq, Bool.false_eq_true, if_false]
    rw [ih fun q' hq' => h q' (List.mem_cons_of_mem q hq')]

/-- Success case of the static first-fit scan: if partition `i` is free and
large enough and no earlier partition qualifies, exactly partition `i` is
occupied (owner set to the process id) and the process records that
partition's id. -/
theorem staticAllocate_of_found (mem : List Partition) (p : Process) (i : Nat)
    (q : Partition) (hget : mem.get? i = some q)
    (hfree : q.free = true) (hsz : p.size ≤ q.size)
    (hbefore : ∀ j, j < i → ∀ q', mem.get? j = some q' →
      ¬(q'.free = true ∧ p.size ≤ q'.size)) :
    staticAllocate mem p =
      (mem.set i { q with free := false, processId := some p.id },
       { p with allocated := true, partitionId := some q.id }, true) := by
  induction mem generalizing i with
  | nil => simp at hget
  | cons q0 rest ih =>
    cases i with
    | zero =>
      simp only [List.get?_cons_zero, Option.some_inj] at hget
      subst hget
      simp [staticAllocate, hfree, hsz]
    | succ i =>
      have h0 : (q0.free && decide (p.size ≤ q0.size)) = false := by
        have := hbefore 0 (Nat.succ_pos i) q0 rfl
        by_cases hf : q0.free = true
        · simp [hf] at this ⊢; exact this
        · simp [Bool.eq_false_iff.mpr hf]
      simp only [staticAllocate, h0, Bool.false_eq_true, if_false,
        List.set_cons_succ]
      rw [ih i hget fun j hj q' hq' =>
        hbefore (j + 1) (Nat.succ_lt_succ hj) q' hq']

theorem clearFirstPartition_geom (mem : List Partition) (pid : Nat) :
    (clearFirstPartition mem pid).map partitionGeom = mem.map partitionGeom := by
  induction mem with
  | nil => rfl
  | cons q rest ih =>
    by_cases h : q.processId = some pid
    · simp [clearFirstPartition, h, partitionGeom]
    · simp [clearFirstPartition, h, ih]

theorem staticAllocate_geom (mem : List Partition) (p : Process) :
    ((staticAllocate mem p).1).map partitionGeom = mem.map partitionGeom := by
  induction mem with
  | nil => rfl
  | cons q rest ih =>
    by_cases h : (q.free && decide (p.size ≤ q.size)) = true
    · simp [staticAllocate, h, partitionGeom]
    · simp only [staticAllocate, h, Bool.false_eq_true, if_false,
        Bool.eq_false_iff.mpr h]
      simp [ih, partitionGeom]

theorem staticDeallocate_geom (mem : List Partition) (procs : List Process)
    (pid : Nat) :
    ((staticDeallocate mem procs pid).1).map partitionGeom
      = mem.map partitionGeom := by
  unfold staticDeallocate
  cases mem.find? (fun q => q.processId == some pid) with
  | none => rfl
  | some _ => exact clearFirstPartition_geom mem pid

/-- **C7.** The static allocator scans the five fixed partitions in address
order and occupies the first free one that is large enough, recording the
owner on the partition and the partition id on the process; when none
qualifies it fails leaving everything unchanged; partition count, ids,
addresses and sizes ({1,2,4,8,1} MiB) never change under `allocate` or
`deallocate`; and in the all-free scenario a 1.5 MiB process lands in the
2 MiB partition and a subsequent 3 MiB process in the 4 MiB partition. -/
theorem static_first_fit_spec :
    (∀ (mem : List Partition) (p : Process),
      (∀ q ∈ mem, ¬(q.free = true ∧ p.size ≤ q.size)) →
        staticAllocate mem p = (mem, p, false)) ∧
    (∀ (mem : List Partition) (p : Process) (i : Nat) (q : Partition),
      mem.get? i = some q → q.free = true → p.size ≤ q.size →
      (∀ j, j < i → ∀ q', mem.get? j = some q' →
        ¬(q'.free = true ∧ p.size ≤ q'.size)) →
      staticAllocate mem p =
        (mem.set i { q with free := false, processId := some p.id },
         { p with allocated := true, partitionId := some q.id }, true)) ∧
    (∀ (mem : List Partition) (p : Process),
      ((staticAllocate mem p).1).map partitionGeom = mem.map partitionGeom) ∧
    (∀ (mem : List Partition) (procs : List Process) (pid : Nat),
      ((staticDeallocate mem procs pid).1).map partitionGeom
        = mem.map partitionGeom) ∧
    initialStaticMemory.map partitionGeom =
      [(0, 2097152, 1048576), (1, 3145728, 2097152), (2, 5242880, 4194304),
       (3, 9437184, 8388608), (4, 17825792, 1048576)] ∧
    ((staticAllocate initialStaticMemory ⟨10, 1536 * 1024, false, none⟩).2.1.partitionId
        = some 1 ∧
      (staticAllocate
          (staticAllocate initialStaticMemory ⟨10, 1536 * 1024, false, none⟩).1
          ⟨11, 3 * 1024 * 1024, false, none⟩).2.1.partitionId = some 2) := by
  refine ⟨staticAllocate_of_none, staticAllocate_of_found,
    staticAllocate_geom, staticDeallocate_geom, by decide, by decide, by decide⟩

/-- **C7 witness.** The success case applied to the initial memory and a
1.5 MiB process: it lands in partition 1 (the 2 MiB one). -/
theorem static_first_fit_witness :
    staticAllocate initialStaticMemory ⟨10, 1536 * 1024, false, none⟩ =
      (initialStaticMemory.set 1
        { id := 1, address := 3145728, size := 2097152,
          free := false, processId := some 10 },
       { id := 10, size := 1536 * 1024, allocated := true, partitionId := some 1 },
       true) := by
  have h := static_first_fit_spec.2.1 initialStaticMemory
    ⟨10, 1536 * 1024, false, none⟩ 1
    { id := 1, address := 3145728, size := 2097152, free := true, processId := none }
    (by decide) (by decide) (by decide)
    (by intro j hj q' hq'
        interval_cases j
        · simp only [show initialStaticMemory.get? 0 = some
            { id := 0, address := 2097152, size := 1048576,
              free := true, processId := none } from by decide,
            Option.some_inj] at hq'
          subst hq'
          decide)
  simpa using h

/-! ## Deallocation as a no-op / idempotence (C8) -/

theorem staticDeallocate_of_no_owner (mem : List Partition) (procs : List Process)
    (pid : Nat) (h : ∀ q ∈ mem, q.processId ≠ some pid) :
    staticDeallocate mem procs pid = (mem, procs) := by
  have hf : mem.find? (fun q => q.processId == some pid) = none :=
    List.find?_eq_none.mpr fun q hq => by simp [h q hq]
  simp [staticDeallocate, hf]

theorem dynDeallocate_of_no_owner (c : Bool) (mem : List Block)
    (procs : List Process) (pid : Nat) (h : ∀ b ∈ mem, b.processId ≠ some pid) :
    dynDeallocate c mem procs pid = (mem, procs) := by
  have hf : mem.find? (fun b => b.processId == some pid) = none :=
    List.find?_eq_none.mpr fun b hb => by simp [h b hb]
  simp [dynDeallocate, hf]

theorem clearFirstPartition_no_owner (mem : List Partition) (pid : Nat)
    (h : mem.countP (fun q => q.processId == some pid) ≤ 1) :
    ∀ q ∈ clearFirstPartition mem pid, q.processId ≠ some pid := by
  induction mem with
  | nil => intro q hq; simp [clearFirstPartition] at hq
  | cons q0 rest ih =>
    by_cases h0 : q0.processId = some pid
    · rw [List.countP_cons_of_pos _ _ (by simp [h0])] at h
      have hrest : rest.countP (fun q => q.processId == some pid) = 0 :=
        Nat.le_zero.mp (Nat.le_of_succ_le_succ h)
      have hnone := List.countP_eq_zero.mp hrest
      intro q hq
      simp only [clearFirstPartition, if_pos h0, List.mem_cons] at hq
      rcases hq with hq | hq
      · subst hq; simp
      · simpa using hnone q hq
    · rw [List.countP_cons_of_neg _ _ (by simp [h0])] at h
      intro q hq
      simp only [clearFirstPartition, if_neg h0, List.mem_cons] at hq
      rcases hq with hq | hq
      · subst hq; exact h0
      · exact ih h q hq

theorem clearFirstBlock_no_owner (mem : List Block) (pid : Nat)
    (h : mem.countP (fun b => b.processId == some pid) ≤ 1) :
    ∀ b ∈ clearFirstBlock mem pid, b.processId ≠ some pid := by
  induction mem with
  | nil => intro b hb; simp [clearFirstBlock] at hb
  | cons b0 rest ih =>
    by_cases h0 : b0.processId = some pid
    · rw [List.countP_cons_of_pos _ _ (by simp [h0])] at h
      have hrest : rest.countP (fun b => b.processId == some pid) = 0 :=
        Nat.le_zero.mp (Nat.le_of_succ_le_succ h)
      have hnone := List.countP_eq_zero.mp hrest
      intro b hb
      simp only [clearFirstBlock, if_pos h0, List.mem_cons] at hb
      rcases hb with hb | hb
      · subst hb; simp
      · simpa using hnone b hb
    · rw [List.countP_cons_of_neg _ _ (by simp [h0])] at h
      intro b hb
      simp only [clearFirstBlock, if_neg h0, List.mem_cons] at hb
      rcases hb with hb | hb
      · subst hb; exact h0
      · exact ih h b hb

/-- `coalesce` introduces no new owners: a merged block keeps the left
block's `processId`. -/
theorem coalesce_no_owner (l : List Block) (pid : Nat)
    (h : ∀ b ∈ l, b.processId ≠ some pid) :
    ∀ b ∈ coalesce l, b.processId ≠ some pid := by
  have key : ∀ n (l : List Block), l.length = n →
      (∀ b ∈ l, b.processId ≠ some pid) →
      ∀ b ∈ coalesce l, b.processId ≠ some pid := by
    intro n
    induction n using Nat.strong_induction_on with
    | _ n ih =>
      intro l hl h
      cases l with
      | nil => simp [coalesce_nil]
      | cons bb1 l2 =>
        cases l2 with
        | nil => simpa [coalesce_single] using h
        | cons bb2 rest =>
          rw [coalesce_cons_cons]
          by_cases hc : (bb1.free && bb2.free) = true
          · rw [if_pos hc]
            refine ih (rest.length + 1) (by simp [← hl])
              ({ bb1 with size := bb1.size + bb2.size } :: rest) rfl ?_
            intro x hx
            rcases List.mem_cons.mp hx with hx | hx
            · rw [hx]; exact h bb1 (by simp)
            · exact h x (by simp [hx])
          · rw [if_neg hc]
            intro x hx
            rcases List.mem_cons.mp hx with hx | hx
            · rw [hx]; exact h bb1 (by simp)
            · refine ih (rest.length + 1) (by simp [← hl]) (bb2 :: rest) rfl ?_ x hx
              intro y hy
              rcases List.mem_cons.mp hy with hy | hy
              · rw [hy]; exact h bb2 (by simp)
              · exact h y (by simp [hy])
  exact key l.length l rfl h

/-- **C8 counterexample.** In a state where two partitions are owned by the
same process id (reachable, since allocation is not guarded against
re-allocating an allocated process), the second `deallocate` frees the
second partition, so calling `deallocate` twice differs from calling it
once. -/
theorem deallocate_twice_cex :
    staticDeallocate
        (staticDeallocate
          [⟨0, 0, 5, false, some 7⟩, ⟨1, 5, 5, false, some 7⟩]
          [⟨7, 5, true, some 0⟩] 7).1
        (staticDeallocate
          [⟨0, 0, 5, false, some 7⟩, ⟨1, 5, 5, false, some 7⟩]
          [⟨7, 5, true, some 0⟩] 7).2 7
      ≠ staticDeallocate
          [⟨0, 0, 5, false, some 7⟩, ⟨1, 5, 5, false, some 7⟩]
          [⟨7, 5, true, some 0⟩] 7 := by
  decide

/-- **C8 (amended).** In both modes, `deallocate` on an id that owns no
region is a no-op (no error); and when at most one region is owned by the
id — as after any single allocation — deallocating twice has the same
effect as deallocating once. -/
theorem deallocate_noop_and_idempotent :
    (∀ (mem : List Partition) (procs : List Process) (pid : Nat),
      (∀ q ∈ mem, q.processId ≠ some pid) →
        staticDeallocate mem procs pid = (mem, procs)) ∧
    (∀ (c : Bool) (mem : List Block) (procs : List Process) (pid : Nat),
      (∀ b ∈ mem, b.processId ≠ some pid) →
        dynDeallocate c mem procs pid = (mem, procs)) ∧
    (∀ (mem : List Partition) (procs : List Process) (pid : Nat),
      mem.countP (fun q => q.processId == some pid) ≤ 1 →
        staticDeallocate (staticDeallocate mem procs pid).1
            (staticDeallocate mem procs pid).2 pid
          = staticDeallocate mem procs pid) ∧
    (∀ (c : Bool) (mem : List Block) (procs : List Process) (pid : Nat),
      mem.countP (fun b => b.processId == some pid) ≤ 1 →
        dynDeallocate c (dynDeallocate c mem procs pid).1
            (dynDeallocate c mem procs pid).2 pid
          = dynDeallocate c mem procs pid) := by
  refine ⟨staticDeallocate_of_no_owner, dynDeallocate_of_no_owner, ?_, ?_⟩
  · intro mem procs pid h
    unfold staticDeallocate
    cases hf : mem.find? (fun q => q.processId == some pid) with
    | none => simp [staticDeallocate, hf]
    | some q =>
      simp only
      exact staticDeallocate_of_no_owner _ _ _ (clearFirstPartition_no_owner mem pid h)
  · intro c mem procs pid h
    unfold dynDeallocate
    cases hf : mem.find? (fun b => b.processId == some pid) with
    | none => simp [dynDeallocate, hf]
    | some b =>
      simp only
      cases c with
      | false =>
        exact dynDeallocate_of_no_owner _ _ _ _ (clearFirstBlock_no_owner mem pid h)
      | true =>
        exact dynDeallocate_of_no_owner _ _ _ _
          (coalesce_no_owner _ pid (clearFirstBlock_no_owner mem pid h))

/-- **C8 witness.** Idempotence applied to a concrete single-owner state. -/
theorem deallocate_idempotent_witness :
    staticDeallocate
        (staticDeallocate [⟨0, 0, 5, false, some 7⟩] [⟨7, 5, true, some 0⟩] 7).1
        (staticDeallocate [⟨0, 0, 5, false, some 7⟩] [⟨7, 5, true, some 0⟩] 7).2 7
      = staticDeallocate [⟨0, 0, 5, false, some 7⟩] [⟨7, 5, true, some 0⟩] 7 :=
  deallocate_noop_and_idempotent.2.2.1
    [⟨0, 0, 5, false, some 7⟩] [⟨7, 5, true, some 0⟩] 7 (by decide)

/-! ## No guard against re-allocating an allocated process (C10) -/

/-- First allocation of a 1 MiB process into the initial dynamic memory. -/
def c10s1 : List Block × Process × Bool :=
  dynAllocate .first (dynInitialMemory TOTAL_MEMORY) ⟨0, 1048576, false, none⟩

/-- Re-allocating the very same (already allocated) process. -/
def c10s2 : List Block × Process × Bool := dynAllocate .first c10s1.1 c10s1.2.1

/-- Deallocating the doubly-allocated process id once. -/
def c10s3 : List Block × List Process :=
  dynDeallocate true c10s2.1 [c10s2.2.1] 0

/-- Same scenario for the static manager with a 1 MiB process. -/
def c10t1 : List Partition × Process × Bool :=
  staticAllocate initialStaticMemory ⟨5, 1048576, false, none⟩

def c10t2 : List Partition × Process × Bool := staticAllocate c10t1.1 c10t1.2.1

def c10t3 : List Partition × List Process :=
  staticDeallocate c10t2.1 [c10t2.2.1] 5

/-- **C10.** Neither allocator guards against re-allocating an allocated
process: block selection and success are independent of the process's
`allocated`/`partitionId` fields; re-allocating an already-allocated
process succeeds and marks a second region with the same owner; a single
`deallocate` then frees only the lowest-address owned region and flags the
process unallocated, leaving the other region occupied with that owner. -/
theorem no_reallocate_guard :
    (∀ (mem : List Partition) (id sz : Nat) (a₁ a₂ : Bool) (r₁ r₂ : Option Nat),
      (staticAllocate mem ⟨id, sz, a₁, r₁⟩).1 = (staticAllocate mem ⟨id, sz, a₂, r₂⟩).1 ∧
      (staticAllocate mem ⟨id, sz, a₁, r₁⟩).2.2 = (staticAllocate mem ⟨id, sz, a₂, r₂⟩).2.2) ∧
    (∀ (fit : FitAlg) (mem : List Block) (id sz : Nat) (a₁ a₂ : Bool)
        (r₁ r₂ : Option Nat),
      (dynAllocate fit mem ⟨id, sz, a₁, r₁⟩).1 = (dynAllocate fit mem ⟨id, sz, a₂, r₂⟩).1 ∧
      (dynAllocate fit mem ⟨id, sz, a₁, r₁⟩).2.2 = (dynAllocate fit mem ⟨id, sz, a₂, r₂⟩).2.2) ∧
    (c10s1.2.1.allocated = true ∧ c10s2.2.2 = true ∧
      c10s2.1.countP (fun b => b.processId == some 0) = 2 ∧
      c10s3.1 = [⟨2097152, 1048576, true, none⟩, ⟨3145728, 1048576, false, some 0⟩,
                 ⟨4194304, 12582912, true, none⟩] ∧
      c10s3.2 = [⟨0, 1048576, false, none⟩]) ∧
    (c10t1.2.1.allocated = true ∧ c10t2.2.2 = true ∧
      c10t2.1.countP (fun q => q.processId == some 5) = 2 ∧
      (c10t3.1.map (fun q => (q.id, q.free, q.processId)))
        = [(0, true, none), (1, false, some 5), (2, true, none),
           (3, true, none), (4, true, none)] ∧
      c10t3.2 = [⟨5, 1048576, false, none⟩]) := by
  refine ⟨?_, ?_, by decide, by decide⟩
  · intro mem id sz a₁ a₂ r₁ r₂
    induction mem with
    | nil => exact ⟨rfl, rfl⟩
    | cons q rest ih =>
      by_cases h : (q.free && decide (sz ≤ q.size)) = true
      · simp [staticAllocate, h]
      · simp only [staticAllocate, h, Bool.false_eq_true, if_false,
          Bool.eq_false_iff.mpr h]
        exact ⟨by simp [ih.1], by simp [ih.2]⟩
  · intro fit mem id sz a₁ a₂ r₁ r₂
    cases hfit : fitIndex fit mem sz with
    | none => simp [dynAllocate, hfit]
    | some i =>
      cases hget : mem.get? i with
      | none =>
        rw [List.get?_eq_getElem?] at hget
        simp [dynAllocate, hfit, hget]
      | some b =>
        rw [List.get?_eq_getElem?] at hget
        simp [dynAllocate, hfit, hget]

/-! ## Fit-selection correctness (C3, C4) -/

/-- A block that qualifies for a request: free and large enough. -/
def Qual (size : Nat) (b : Block) : Prop := b.free = true ∧ size ≤ b.size

theorem get?_some_lt {α : Type _} {l : List α} {i : Nat} {a : α}
    (h : l.get? i = some a) : i < l.length := by
  by_contra hlt
  rw [List.get?_len_le (Nat.le_of_not_lt hlt)] at h
  exact Option.noConfusion h

/-- What the best-fit accumulator means after scanning the prefix `pre`:
`none` iff no block qualified yet; `some (bi, md)` records the position and
diff of the first block attaining the (strictly) minimal diff so far. -/
def BestAcc (size : Nat) (pre : List Block) : Option (Nat × Nat) → Prop
  | none => ∀ b ∈ pre, ¬ Qual size b
  | some (bi, md) =>
    ∃ b, pre.get? bi = some b ∧ Qual size b ∧ b.size - size = md ∧
      (∀ j b', pre.get? j = some b' → Qual size b' → md ≤ b'.size - size) ∧
      (∀ j b', j < bi → pre.get? j = some b' → Qual size b' → md < b'.size - size)

theorem bestStep_not_qual (size : Nat) (b : Block) (i : Nat)
    (acc : Option (Nat × Nat)) (h : (b.free && decide (size ≤ b.size)) = false) :
    bestStep size b i acc = acc := by
  simp [bestStep, h]

theorem bestStep_qual_none (size : Nat) (b : Block) (i : Nat)
    (h : (b.free && decide (size ≤ b.size)) = true) :
    bestStep size b i none = some (i, b.size - size) := by
  simp [bestStep, h]

theorem bestStep_qual_lt (size : Nat) (b : Block) (i bi md : Nat)
    (h : (b.free && decide (size ≤ b.size)) = true) (hlt : b.size - size < md) :
    bestStep size b i (some (bi, md)) = some (i, b.size - size) := by
  simp [bestStep, h, hlt]

theorem bestStep_qual_ge (size : Nat) (b : Block) (i bi md : Nat)
    (h : (b.free && decide (size ≤ b.size)) = true) (hlt : ¬ b.size - size < md) :
    bestStep size b i (some (bi, md)) = some (bi, md) := by
  simp [bestStep, h, hlt]

theorem BestAcc_step (size : Nat) (pre : List Block) (acc : Option (Nat × Nat))
    (b : Block) (h : BestAcc size pre acc) :
    BestAcc size (pre ++ [b]) (bestStep size b pre.length acc) := by
  have hb_at : (pre ++ [b]).get? pre.length = some b := List.get?_concat_length pre b
  have hpre_at : ∀ j, j < pre.length → (pre ++ [b]).get? j = pre.get? j :=
    fun j hj => List.get?_append hj
  have hpast : ∀ j, pre.length < j → (pre ++ [b]).get? j = none := fun j hj =>
    List.get?_len_le (by simp; omega)
  by_cases hq : (b.free && decide (size ≤ b.size)) = true
  · have hqb : Qual size b := by
      simp only [Bool.and_eq_true, decide_eq_true_eq] at hq
      exact ⟨hq.1, hq.2⟩
    cases acc with
    | none =>
      rw [bestStep_qual_none size b pre.length hq]
      refine ⟨b, hb_at, hqb, rfl, ?_, ?_⟩
      · intro j b' hj hq'
        rcases Nat.lt_trichotomy j pre.length with hlt | heq | hgt
        · rw [hpre_at j hlt] at hj
          exact absurd hq' (h b' (List.get?_mem hj))
        · subst heq; rw [hb_at] at hj
          cases hj; exact Nat.le_refl _
        · rw [hpast j hgt] at hj; exact Option.noConfusion hj
      · intro j b' hji hj hq'
        rw [hpre_at j hji] at hj
        exact absurd hq' (h b' (List.get?_mem hj))
    | some acc' =>
      obtain ⟨bi, md⟩ := acc'
      obtain ⟨b0, hb0, hq0, hd0, hmin, hfirst⟩ := h
      have hbi : bi < pre.length := get?_some_lt hb0
      by_cases hlt : b.size - size < md
      · rw [bestStep_qual_lt size b pre.length bi md hq hlt]
        refine ⟨b, hb_at, hqb, rfl, ?_, ?_⟩
        · intro j b' hj hq'
          rcases Nat.lt_trichotomy j pre.length with hjlt | heq | hgt
          · rw [hpre_at j hjlt] at hj
            exact Nat.le_of_lt (Nat.lt_of_lt_of_le hlt (hmin j b' hj hq'))
          · subst heq; rw [hb_at] at hj
            cases hj; exact Nat.le_refl _
          · rw [hpast j hgt] at hj; exact Option.noConfusion hj
        · intro j b' hji hj hq'
          rw [hpre_at j hji] at hj
          exact Nat.lt_of_lt_of_le hlt (hmin j b' hj hq')
      · rw [bestStep_qual_ge size b pre.length bi md hq hlt]
        refine ⟨b0, hpre_at bi hbi ▸ hb0, hq0, hd0, ?_, ?_⟩
        · intro j b' hj hq'
          rcases Nat.lt_trichotomy j pre.length with hjlt | heq | hgt
          · rw [hpre_at j hjlt] at hj
            exact hmin j b' hj hq'
          · subst heq; rw [hb_at] at hj
            cases hj; exact Nat.le_of_not_lt hlt
          · rw [hpast j hgt] at hj; exact Option.noConfusion hj
        · intro j b' hji hj hq'
          rw [hpre_at j (Nat.lt_trans hji hbi)] at hj
          exact hfirst j b' hji hj hq'
  · rw [bestStep_not_qual size b pre.length acc (Bool.eq_false_iff.mpr hq)]
    have hnq : ¬ Qual size b := by
      intro hc
      exact hq (by simp [hc.1, hc.2])
    cases acc with
    | none =>
      intro x hx
      rcases List.mem_append.mp hx with hx | hx
      · exact h x hx
      · rw [List.mem_singleton.mp hx]; exact hnq
    | some acc' =>
      obtain ⟨bi, md⟩ := acc'
      obtain ⟨b0, hb0, hq0, hd0, hmin, hfirst⟩ := h
      have hbi : bi < pre.length := get?_some_lt hb0
      refine ⟨b0, hpre_at bi hbi ▸ hb0, hq0, hd0, ?_, ?_⟩
      · intro j b' hj hq'
        rcases Nat.lt_trichotomy j pre.length with hjlt | heq | hgt
        · rw [hpre_at j hjlt] at hj
          exact hmin j b' hj hq'
        · subst heq; rw [hb_at] at hj
          cases hj; exact absurd hq' hnq
        · rw [hpast j hgt] at hj; exact Option.noConfusion hj
      · intro j b' hji hj hq'
        rw [hpre_at j (Nat.lt_trans hji hbi)] at hj
        exact hfirst j b' hji hj hq'

theorem bestFitGo_acc (size : Nat) (l : List Block) :
    ∀ (pre : List Block) (acc : Option (Nat × Nat)), BestAcc size pre acc →
      BestAcc size (pre ++ l) (bestFitGo size l pre.length acc) := by
  induction l with
  | nil => intro pre acc h; simpa [bestFitGo] using h
  | cons b rest ih =>
    intro pre acc h
    have hstep := BestAcc_step size pre acc b h
    have hrec := ih (pre ++ [b]) _ hstep
    rw [List.length_append] at hrec
    simpa [bestFitGo, List.append_assoc] using hrec

/-- The best-fit scan result satisfies the accumulator invariant over the
whole list. -/
theorem bestFit_acc (mem : List Block) (size : Nat) :
    BestAcc size mem (bestFitGo size mem 0 none) := by
  have h := bestFitGo_acc size mem [] none (by intro b hb; simp at hb)
  simpa using h

/-- Blocks at increasing addresses of sizes 512 KiB, 2 MiB, 1 MiB, all
free: the concrete scenario of the fit-correctness property. -/
def demoFitBlocks : List Block :=
  [{ address := 2097152, size := 524288, free := true, processId := none },
   { address := 2621440, size := 2097152, free := true, processId := none },
   { address := 4718592, size := 1048576, free := true, processId := none }]

/-- **C3.** Best-fit selects, among free blocks with `size ≥ requested`,
the one minimizing `size - requested`, ties broken by lowest address
(earlier qualifying blocks have strictly larger diff); it reports failure
exactly when no free block is large enough; and on the 512 KiB/2 MiB/1 MiB
scenario with a 600 KiB request it selects the 1 MiB block. -/
theorem best_fit_selects_min_diff :
    (∀ (mem : List Block) (size : Nat),
      match findBestFit mem size with
      | none => ∀ b ∈ mem, ¬(b.free = true ∧ size ≤ b.size)
      | some i => ∃ b, mem.get? i = some b ∧ b.free = true ∧ size ≤ b.size ∧
          (∀ j b', mem.get? j = some b' → b'.free = true → size ≤ b'.size →
            b.size - size ≤ b'.size - size) ∧
          (∀ j b', j < i → mem.get? j = some b' → b'.free = true → size ≤ b'.size →
            b.size - size < b'.size - size)) ∧
    findBestFit demoFitBlocks (600 * 1024) = some 2 ∧
    demoFitBlocks.get? 2
      = some { address := 4718592, size := 1048576, free := true, processId := none } := by
  refine ⟨?_, by decide, by decide⟩
  intro mem size
  have hacc := bestFit_acc mem size
  cases hgo : bestFitGo size mem 0 none with
  | none =>
    rw [hgo] at hacc
    simp only [findBestFit, hgo, Option.map_none']
    exact fun b hb => hacc b hb
  | some acc =>
    obtain ⟨bi, md⟩ := acc
    rw [hgo] at hacc
    obtain ⟨b, hb, hqb, hd, hmin, hfirst⟩ := hacc
    simp only [findBestFit, hgo, Option.map_some']
    refine ⟨b, hb, hqb.1, hqb.2, ?_, ?_⟩
    · intro j b' hj hf hs
      rw [hd]; exact hmin j b' hj ⟨hf, hs⟩
    · intro j b' hji hj hf hs
      rw [hd]; exact hfirst j b' hji hj ⟨hf, hs⟩

/-- What the worst-fit accumulator means after scanning the prefix `pre`:
`some (bi, md)` records the position and diff of the first block attaining
the (strictly) maximal diff so far. -/
def WorstAcc (size : Nat) (pre : List Block) : Option (Nat × Nat) → Prop
  | none => ∀ b ∈ pre, ¬ Qual size b
  | some (bi, md) =>
    ∃ b, pre.get? bi = some b ∧ Qual size b ∧ b.size - size = md ∧
      (∀ j b', pre.get? j = some b' → Qual size b' → b'.size - size ≤ md) ∧
      (∀ j b', j < bi → pre.get? j = some b' → Qual size b' → b'.size - size < md)

theorem worstStep_not_qual (size : Nat) (b : Block) (i : Nat)
    (acc : Option (Nat × Nat)) (h : (b.free && decide (size ≤ b.size)) = false) :
    worstStep size b i acc = acc := by
  simp [worstStep, h]

theorem worstStep_qual_none (size : Nat) (b : Block) (i : Nat)
    (h : (b.free && decide (size ≤ b.size)) = true) :
    worstStep size b i none = some (i, b.size - size) := by
  simp [worstStep, h]

theorem worstStep_qual_lt (size : Nat) (b : Block) (i bi md : Nat)
    (h : (b.free && decide (size ≤ b.size)) = true) (hlt : md < b.size - size) :
    worstStep size b i (some (bi, md)) = some (i, b.size - size) := by
  simp [worstStep, h, hlt]

theorem worstStep_qual_ge (size : Nat) (b : Block) (i bi md : Nat)
    (h : (b.free && decide (size ≤ b.size)) = true) (hlt : ¬ md < b.size - size) :
    worstStep size b i (some (bi, md)) = some (bi, md) := by
  simp [worstStep, h, hlt]

theorem WorstAcc_step (size : Nat) (pre : List Block) (acc : Option (Nat × Nat))
    (b : Block) (h : WorstAcc size pre acc) :
    WorstAcc size (pre ++ [b]) (worstStep size b pre.length acc) := by
  have hb_at : (pre ++ [b]).get? pre.length = some b := List.get?_concat_length pre b
  have hpre_at : ∀ j, j < pre.length → (pre ++ [b]).get? j = pre.get? j :=
    fun j hj => List.get?_append hj
  have hpast : ∀ j, pre.length < j → (pre ++ [b]).get? j = none := fun j hj =>
    List.get?_len_le (by simp; omega)
  by_cases hq : (b.free && decide (size ≤ b.size)) = true
  · have hqb : Qual size b := by
      simp only [Bool.and_eq_true, decide_eq_true_eq] at hq
      exact ⟨hq.1, hq.2⟩
    cases acc with
    | none =>
      rw [worstStep_qual_none size b pre.length hq]
      refine ⟨b, hb_at, hqb, rfl, ?_, ?_⟩
      · intro j b' hj hq'
        rcases Nat.lt_trichotomy j pre.length with hlt | heq | hgt
        · rw [hpre_at j hlt] at hj
          exact absurd hq' (h b' (List.get?_mem hj))
        · subst heq; rw [hb_at] at hj
          cases hj; exact Nat.le_refl _
        · rw [hpast j hgt] at hj; exact Option.noConfusion hj
      · intro j b' hji hj hq'
        rw [hpre_at j hji] at hj
        exact absurd hq' (h b' (List.get?_mem hj))
    | some acc' =>
      obtain ⟨bi, md⟩ := acc'
      obtain ⟨b0, hb0, hq0, hd0, hmax, hfirst⟩ := h
      have hbi : bi < pre.length := get?_some_lt hb0
      by_cases hlt : md < b.size - size
      · rw [worstStep_qual_lt size b pre.length bi md hq hlt]
        refine ⟨b, hb_at, hqb, rfl, ?_, ?_⟩
        · intro j b' hj hq'
          rcases Nat.lt_trichotomy j pre.length with hjlt | heq | hgt
          · rw [hpre_at j hjlt] at hj
            exact Nat.le_of_lt (Nat.lt_of_le_of_lt (hmax j b' hj hq') hlt)
          · subst heq; rw [hb_at] at hj
            cases hj; exact Nat.le_refl _
          · rw [hpast j hgt] at hj; exact Option.noConfusion hj
        · intro j b' hji hj hq'
          rw [hpre_at j hji] at hj
          exact Nat.lt_of_le_of_lt (hmax j b' hj hq') hlt
      · rw [worstStep_qual_ge size b pre.length bi md hq hlt]
        refine ⟨b0, hpre_at bi hbi ▸ hb0, hq0, hd0, ?_, ?_⟩
        · intro j b' hj hq'
          rcases Nat.lt_trichotomy j pre.length with hjlt | heq | hgt
          · rw [hpre_at j hjlt] at hj
            exact hmax j b' hj hq'
          · subst heq; rw [hb_at] at hj
            cases hj; exact Nat.le_of_not_lt hlt
          · rw [hpast j hgt] at hj; exact Option.noConfusion hj
        · intro j b' hji hj hq'
          rw [hpre_at j (Nat.lt_trans hji hbi)] at hj
          exact hfirst j b' hji hj hq'
  · rw [worstStep_not_qual size b pre.length acc (Bool.eq_false_iff.mpr hq)]
    have hnq : ¬ Qual size b := by
      intro hc
      exact hq (by simp [hc.1, hc.2])
    cases acc with
    | none =>
      intro x hx
      rcases List.mem_append.mp hx with hx | hx
      · exact h x hx
      · rw [List.mem_singleton.mp hx]; exact hnq
    | some acc' =>
      obtain ⟨bi, md⟩ := acc'
      obtain ⟨b0, hb0, hq0, hd0, hmax, hfirst⟩ := h
      have hbi : bi < pre.length := get?_some_lt hb0
      refine ⟨b0, hpre_at bi hbi ▸ hb0, hq0, hd0, ?_, ?_⟩
      · intro j b' hj hq'
        rcases Nat.lt_trichotomy j pre.length with hjlt | heq | hgt
        · rw [hpre_at j hjlt] at hj
          exact hmax j b' hj hq'
        · subst heq; rw [hb_at] at hj
          cases hj; exact absurd hq' hnq
        · rw [hpast j hgt] at hj; exact Option.noConfusion hj
      · intro j b' hji hj hq'
        rw [hpre_at j (Nat.lt_trans hji hbi)] at hj
        exact hfirst j b' hji hj hq'

theorem worstFitGo_acc (size : Nat) (l : List Block) :
    ∀ (pre : List Block) (acc : Option (Nat × Nat)), WorstAcc size pre acc →
      WorstAcc size (pre ++ l) (worstFitGo size l pre.length acc) := by
  induction l with
  | nil => intro pre acc h; simpa [worstFitGo] using h
  | cons b rest ih =>
    intro pre acc h
    have hstep := WorstAcc_step size pre acc b h
    have hrec := ih (pre ++ [b]) _ hstep
    rw [List.length_append] at hrec
    simpa [worstFitGo, List.append_assoc] using hrec

theorem worstFit_acc (mem : List Block) (size : Nat) :
    WorstAcc size mem (worstFitGo size mem 0 none) := by
  have h := worstFitGo_acc size mem [] none (by intro b hb; simp at hb)
  simpa using h

/-- **C4.** Worst-fit selects, among free blocks with `size ≥ requested`,
the one maximizing `size - requested`, ties broken by lowest address
(earlier qualifying blocks have strictly smaller diff); it reports failure
exactly when no free block is large enough. -/
theorem worst_fit_selects_max_diff :
    ∀ (mem : List Block) (size : Nat),
      match findWorstFit mem size with
      | none => ∀ b ∈ mem, ¬(b.free = true ∧ size ≤ b.size)
      | some i => ∃ b, mem.get? i = some b ∧ b.free = true ∧ size ≤ b.size ∧
          (∀ j b', mem.get? j = some b' → b'.free = true → size ≤ b'.size →
            b'.size - size ≤ b.size - size) ∧
          (∀ j b', j < i → mem.get? j = some b' → b'.free = true → size ≤ b'.size →
            b'.size - size < b.size - size) := by
  intro mem size
  have hacc := worstFit_acc mem size
  cases hgo : worstFitGo size mem 0 none with
  | none =>
    rw [hgo] at hacc
    simp only [findWorstFit, hgo, Option.map_none']
    exact fun b hb => hacc b hb
  | some acc =>
    obtain ⟨bi, md⟩ := acc
    rw [hgo] at hacc
    obtain ⟨b, hb, hqb, hd, hmax, hfirst⟩ := hacc
    simp only [findWorstFit, hgo, Option.map_some']
    refine ⟨b, hb, hqb.1, hqb.2, ?_, ?_⟩
    · intro j b' hj hf hs
      rw [hd]; exact hmax j b' hj ⟨hf, hs⟩
    · intro j b' hji hj hf hs
      rw [hd]; exact hfirst j b' hji hj ⟨hf, hs⟩

/-! ## First-fit soundness and the combined fit interface -/

theorem firstFitGo_none (size : Nat) :
    ∀ (l : List Block) (i0 : Nat), firstFitGo size l i0 = none →
      ∀ b ∈ l, ¬ Qual size b := by
  intro l
  induction l with
  | nil => intro i0 _ b hb; simp at hb
  | cons b0 rest ih =>
    intro i0 h b hb
    by_cases hq : (b0.free && decide (size ≤ b0.size)) = true
    · simp [firstFitGo, hq] at h
    · rw [firstFitGo, if_neg hq] at h
      rcases List.mem_cons.mp hb with hb | hb
      · rw [hb]
        intro hc
        exact hq (by simp [hc.1, hc.2])
      · exact ih (i0 + 1) h b hb

theorem firstFitGo_some (size : Nat) :
    ∀ (l : List Block) (i0 i : Nat), firstFitGo size l i0 = some i →
      ∃ k b, i = i0 + k ∧ l.get? k = some b ∧ Qual size b := by
  intro l
  induction l with
  | nil => intro i0 i h; exact Option.noConfusion h
  | cons b0 rest ih =>
    intro i0 i h
    by_cases hq : (b0.free && decide (size ≤ b0.size)) = true
    · rw [firstFitGo, if_pos hq] at h
      cases h
      refine ⟨0, b0, by omega, rfl, ?_⟩
      simp only [Bool.and_eq_true, decide_eq_true_eq] at hq
      exact ⟨hq.1, hq.2⟩
    · rw [firstFitGo, if_neg hq] at h
      obtain ⟨k, b, hi, hget, hqb⟩ := ih (i0 + 1) i h
      exact ⟨k + 1, b, by omega, hget, hqb⟩

/-- Each fit function only ever returns the index of a free, large-enough
block. -/
theorem fitIndex_some (fit : FitAlg) (mem : List Block) (size : Nat) (i : Nat)
    (h : fitIndex fit mem size = some i) :
    ∃ b, mem.get? i = some b ∧ Qual size b := by
  cases fit with
  | first =>
    obtain ⟨k, b, hi, hget, hq⟩ := firstFitGo_some size mem 0 i h
    exact ⟨b, by rw [hi, Nat.zero_add]; exact hget, hq⟩
  | best =>
    have hacc := bestFit_acc mem size
    simp only [fitIndex, findBestFit] at h
    cases hgo : bestFitGo size mem 0 none with
    | none => rw [hgo] at h; exact Option.noConfusion h
    | some acc =>
      obtain ⟨bi, md⟩ := acc
      rw [hgo] at h hacc
      obtain ⟨b, hb, hq, _⟩ := hacc
      cases h
      exact ⟨b, hb, hq⟩
  | worst =>
    have hacc := worstFit_acc mem size
    simp only [fitIndex, findWorstFit] at h
    cases hgo : worstFitGo size mem 0 none with
    | none => rw [hgo] at h; exact Option.noConfusion h
    | some acc =>
      obtain ⟨bi, md⟩ := acc
      rw [hgo] at h hacc
      obtain ⟨b, hb, hq, _⟩ := hacc
      cases h
      exact ⟨b, hb, hq⟩

/-- When a fit function fails, no block qualifies. -/
theorem fitIndex_none (fit : FitAlg) (mem : List Block) (size : Nat)
    (h : fitIndex fit mem size = none) : ∀ b ∈ mem, ¬ Qual size b := by
  cases fit with
  | first => exact firstFitGo_none size mem 0 h
  | best =>
    have hacc := bestFit_acc mem size
    simp only [fitIndex, findBestFit] at h
    cases hgo : bestFitGo size mem 0 none with
    | none => rw [hgo] at hacc; exact hacc
    | some acc => rw [hgo] at h; simp at h
  | worst =>
    have hacc := worstFit_acc mem size
    simp only [fitIndex, findWorstFit] at h
    cases hgo : worstFitGo size mem 0 none with
    | none => rw [hgo] at hacc; exact hacc
    | some acc => rw [hgo] at h; simp at h

/-! ## Dynamic allocation (C2) -/

theorem take_cons_drop {α : Type _} :
    ∀ (l : List α) (i : Nat) (b : α), l.get? i = some b →
      l.take i ++ b :: l.drop (i + 1) = l := by
  intro l
  induction l with
  | nil => intro i b h; exact Option.noConfusion h
  | cons x rest ih =>
    intro i b h
    cases i with
    | zero => cases h; simp
    | succ i => simpa using ih i b h

theorem set_take_drop {α : Type _} :
    ∀ (l : List α) (i : Nat) (x b : α), l.get? i = some b →
      l.set i x = l.take i ++ x :: l.drop (i + 1) := by
  intro l
  induction l with
  | nil => intro i x b h; exact Option.noConfusion h
  | cons y rest ih =>
    intro i x b h
    cases i with
    | zero => simp
    | succ i => simpa using ih i x b h

theorem set_insert_decomp {α : Type _} :
    ∀ (l : List α) (i : Nat) (x y b : α), l.get? i = some b →
      (l.set i x).take (i + 1) ++ y :: (l.set i x).drop (i + 1)
        = l.take i ++ x :: y :: l.drop (i + 1) := by
  intro l
  induction l with
  | nil => intro i x y b h; exact Option.noConfusion h
  | cons z rest ih =>
    intro i x y b h
    cases i with
    | zero => simp
    | succ i => simpa using ih i x y b h

theorem dynAllocate_of_none (fit : FitAlg) (mem : List Block) (p : Process)
    (h : fitIndex fit mem p.size = none) : dynAllocate fit mem p = (mem, p, false) := by
  simp [dynAllocate, h]

/-- Normal form of a successful dynamic allocation: the chosen block is
replaced in place by an occupied block of exactly the requested size, with
a free remainder block spliced in right after it iff the remainder is
positive. -/
theorem dynAllocate_found (fit : FitAlg) (mem : List Block) (p : Process)
    (i : Nat) (b : Block) (hfit : fitIndex fit mem p.size = some i)
    (hget : mem.get? i = some b) :
    dynAllocate fit mem p =
      (mem.take i ++
         { address := b.address, size := p.size, free := false,
           processId := some p.id } ::
         (if 0 < b.size - p.size then
            { address := b.address + p.size, size := b.size - p.size,
              free := true, processId := none } :: mem.drop (i + 1)
          else mem.drop (i + 1)),
       { p with allocated := true, partitionId := some b.address }, true) := by
  have hget' : mem[i]? = some b := by rw [← List.get?_eq_getElem?]; exact hget
  by_cases hrem : 0 < b.size - p.size
  · simp only [dynAllocate, hfit, List.get?_eq_getElem?, hget', hrem, if_true]
    rw [set_insert_decomp mem i _ _ b hget]
  · simp only [dynAllocate, hfit, List.get?_eq_getElem?, hget', hrem, if_false]
    rw [set_take_drop mem i _ b hget]

/-- **C2.** The dynamic allocator selects a candidate free block via the
configured fit function; if one is found (necessarily free and large
enough), it replaces that block in place with an occupied block sized
exactly `p.size` at the same start address, inserts a new free block
covering the remainder right after iff the original block was strictly
larger, preserves the total extent, and marks the process allocated with
its backing reference set to the occupied block's start address; if no
block qualifies, it fails leaving the block list and the process
unchanged. -/
theorem dyn_allocate_spec :
    ∀ (fit : FitAlg) (mem : List Block) (p : Process),
      match fitIndex fit mem p.size with
      | none =>
          (∀ b ∈ mem, ¬(b.free = true ∧ p.size ≤ b.size)) ∧
          dynAllocate fit mem p = (mem, p, false)
      | some i =>
          ∃ b, mem.get? i = some b ∧ b.free = true ∧ p.size ≤ b.size ∧
            dynAllocate fit mem p =
              (mem.take i ++
                 { address := b.address, size := p.size, free := false,
                   processId := some p.id } ::
                 (if 0 < b.size - p.size then
                    { address := b.address + p.size, size := b.size - p.size,
                      free := true, processId := none } :: mem.drop (i + 1)
                  else mem.drop (i + 1)),
               { p with allocated := true, partitionId := some b.address }, true) ∧
            ((dynAllocate fit mem p).1.map (fun bl => bl.size)).sum
              = (mem.map (fun bl => bl.size)).sum := by
  intro fit mem p
  cases hfit : fitIndex fit mem p.size with
  | none =>
    exact ⟨fun b hb => fitIndex_none fit mem p.size hfit b hb,
      dynAllocate_of_none fit mem p hfit⟩
  | some i =>
    obtain ⟨b, hget, hq⟩ := fitIndex_some fit mem p.size i hfit
    have hnf := dynAllocate_found fit mem p i b hfit hget
    refine ⟨b, hget, hq.1, hq.2, hnf, ?_⟩
    rw [hnf]
    have hdecomp := take_cons_drop mem i b hget
    conv_rhs => rw [← hdecomp]
    by_cases hrem : 0 < b.size - p.size
    · simp only [hrem, if_true, List.map_append, List.sum_append, List.map_cons,
        List.sum_cons]
      have hsz := hq.2
      omega
    · simp only [hrem, if_false, List.map_append, List.sum_append, List.map_cons,
        List.sum_cons]
      have hsz := hq.2
      omega

/-! ## Coverage invariant (C1) -/

theorem covers_nil (lo hi : Nat) : covers lo hi [] = (lo == hi) := rfl

theorem covers_cons (lo hi : Nat) (b : Block) (l : List Block) :
    covers lo hi (b :: l)
      = ((b.address == lo) && decide (0 < b.size) && covers (lo + b.size) hi l) := rfl

theorem covers_append : ∀ (xs ys : List Block) (lo m hi : Nat),
    covers lo m xs = true → covers m hi ys = true →
    covers lo hi (xs ++ ys) = true := by
  intro xs
  induction xs with
  | nil =>
    intro ys lo m hi h1 h2
    rw [covers_nil] at h1
    have hlm : lo = m := by simpa using h1
    subst hlm
    simpa using h2
  | cons b rest ih =>
    intro ys lo m hi h1 h2
    rw [covers_cons] at h1
    simp only [Bool.and_eq_true] at h1
    rw [List.cons_append, covers_cons]
    simp only [Bool.and_eq_true]
    exact ⟨h1.1, ih ys _ m hi h1.2 h2⟩

/-- Replacing the block at index `i` by any list of blocks tiling exactly
the same extent preserves coverage. -/
theorem covers_replace : ∀ (l : List Block) (i : Nat) (b : Block)
    (mid : List Block) (lo hi : Nat),
    l.get? i = some b → covers lo hi l = true →
    covers b.address (b.address + b.size) mid = true →
    covers lo hi (l.take i ++ mid ++ l.drop (i + 1)) = true := by
  intro l
  induction l with
  | nil => intro i b mid lo hi h; exact Option.noConfusion h
  | cons c rest ih =>
    intro i b mid lo hi hget hcov hmid
    rw [covers_cons] at hcov
    simp only [Bool.and_eq_true] at hcov
    obtain ⟨⟨haddr, hsize⟩, hcov'⟩ := hcov
    cases i with
    | zero =>
      rw [List.get?_cons_zero] at hget
      injection hget with hbc
      subst hbc
      simp only [List.take_zero, List.drop_succ_cons, List.drop_zero,
        List.nil_append]
      have haddr2 : c.address = lo := by simpa using haddr
      rw [haddr2] at hmid
      exact covers_append mid rest lo (lo + c.size) hi hmid hcov'
    | succ i =>
      simp only [List.take_succ_cons, List.drop_succ_cons, List.cons_append]
      rw [covers_cons]
      simp only [Bool.and_eq_true]
      exact ⟨⟨haddr, hsize⟩, ih i b mid (lo + c.size) hi hget hcov' hmid⟩

theorem covers_dynAllocate (fit : FitAlg) (mem : List Block) (p : Process)
    (lo hi : Nat) (hp : 0 < p.size)
    (hcov : covers lo hi mem = true) :
    covers lo hi (dynAllocate fit mem p).1 = true := by
  cases hfit : fitIndex fit mem p.size with
  | none => rw [dynAllocate_of_none fit mem p hfit]; exact hcov
  | some i =>
    obtain ⟨b, hget, hq⟩ := fitIndex_some fit mem p.size i hfit
    rw [dynAllocate_found fit mem p i b hfit hget]
    by_cases hrem : 0 < b.size - p.size
    · rw [if_pos hrem]
      have hmid : covers b.address (b.address + b.size)
          [{ address := b.address, size := p.size, free := false,
             processId := some p.id },
           { address := b.address + p.size, size := b.size - p.size,
             free := true, processId := none }] = true := by
        have hps := hp
        have hbs := hq.2
        simp only [covers_cons, covers_nil, Bool.and_eq_true, beq_iff_eq,
          decide_eq_true_eq, true_and]
        omega
      have h := covers_replace mem i b _ lo hi hget hcov hmid
      simpa using h
    · rw [if_neg hrem]
      have hsz : p.size = b.size := by
        have := hq.2
        omega
      have hmid : covers b.address (b.address + b.size)
          [{ address := b.address, size := p.size, free := false,
             processId := some p.id }] = true := by
        have hps := hp
        simp only [covers_cons, covers_nil, Bool.and_eq_true, beq_iff_eq,
          decide_eq_true_eq, true_and]
        omega
      have h := covers_replace mem i b _ lo hi hget hcov hmid
      simpa using h

theorem covers_clearFirstBlock : ∀ (mem : List Block) (pid : Nat) (lo hi : Nat),
    covers lo hi (clearFirstBlock mem pid) = covers lo hi mem := by
  intro mem
  induction mem with
  | nil => intro pid lo hi; rfl
  | cons b rest ih =>
    intro pid lo hi
    by_cases h : b.processId = some pid
    · simp [clearFirstBlock, h, covers_cons]
    · simp [clearFirstBlock, h, covers_cons, ih]

theorem covers_coalesce (l : List Block) : ∀ (lo hi : Nat),
    covers lo hi l = true → covers lo hi (coalesce l) = true := by
  have key : ∀ n (l : List Block), l.length = n → ∀ lo hi,
      covers lo hi l = true → covers lo hi (coalesce l) = true := by
    intro n
    induction n using Nat.strong_induction_on with
    | _ n ih =>
      intro l hl lo hi hcov
      cases l with
      | nil => simpa [coalesce_nil] using hcov
      | cons bb1 l2 =>
        cases l2 with
        | nil => simpa [coalesce_single] using hcov
        | cons bb2 rest =>
          rw [coalesce_cons_cons]
          rw [covers_cons, covers_cons] at hcov
          simp only [Bool.and_eq_true, beq_iff_eq, decide_eq_true_eq] at hcov
          obtain ⟨⟨haddr1, hs1⟩, ⟨haddr2, hs2⟩, hcov'⟩ := hcov
          by_cases hc : (bb1.free && bb2.free) = true
          · rw [if_pos hc]
            refine ih (rest.length + 1) (by simp [← hl])
              ({ bb1 with size := bb1.size + bb2.size } :: rest) rfl lo hi ?_
            rw [covers_cons]
            simp only [Bool.and_eq_true, beq_iff_eq, decide_eq_true_eq]
            refine ⟨⟨haddr1, by omega⟩, ?_⟩
            have : lo + (bb1.size + bb2.size) = lo + bb1.size + bb2.size := by omega
            rw [this]
            exact hcov'
          · rw [if_neg hc]
            rw [covers_cons]
            simp only [Bool.and_eq_true, beq_iff_eq, decide_eq_true_eq]
            refine ⟨⟨haddr1, hs1⟩, ?_⟩
            refine ih (rest.length + 1) (by simp [← hl]) (bb2 :: rest) rfl
              (lo + bb1.size) hi ?_
            rw [covers_cons]
            simp only [Bool.and_eq_true, beq_iff_eq, decide_eq_true_eq]
            exact ⟨⟨haddr2, hs2⟩, hcov'⟩
  exact key l.length l rfl

theorem covers_dynDeallocate (c : Bool) (mem : List Block) (procs : List Process)
    (pid : Nat) (lo hi : Nat) (hcov : covers lo hi mem = true) :
    covers lo hi (dynDeallocate c mem procs pid).1 = true := by
  unfold dynDeallocate
  cases mem.find? (fun b => b.processId == some pid) with
  | none => exact hcov
  | some _ =>
    simp only
    cases c with
    | false =>
      rw [if_neg (by simp), covers_clearFirstBlock]
      exact hcov
    | true =>
      rw [if_pos rfl]
      exact covers_coalesce _ lo hi (by rw [covers_clearFirstBlock]; exact hcov)

/-- Every reachable dynamic state tiles the usable space exactly. -/
theorem reachable_covers (c : Bool) (fit : FitAlg) (mem : List Block)
    (h : DynReachable c fit mem) :
    covers OS_MEMORY_SIZE TOTAL_MEMORY mem = true := by
  induction h with
  | init => decide
  | alloc mem p hp _ ih => exact covers_dynAllocate fit mem p _ _ hp ih
  | dealloc mem procs pid _ ih => exact covers_dynDeallocate c mem procs pid _ _ ih
  | coal mem _ ih => exact covers_coalesce mem _ _ ih

/-- **C1.** The region-coverage invariant (ordered, contiguous,
non-overlapping, positive sizes, union = usable space) holds for every
reachable dynamic state, but is already violated by the static manager's
initial state: its five partitions are laid out from the 2 MiB OS prefix
and tile `[2 MiB, 18 MiB)`, exceeding the 16 MiB total memory instead of
equaling the usable space `[2 MiB, 16 MiB)`. -/
theorem region_coverage_invariant :
    (∀ (c : Bool) (fit : FitAlg) (mem : List Block), DynReachable c fit mem →
      covers OS_MEMORY_SIZE TOTAL_MEMORY mem = true) ∧
    covers OS_MEMORY_SIZE TOTAL_MEMORY (partitionBlocks initialStaticMemory) = false ∧
    covers OS_MEMORY_SIZE (18 * 1024 * 1024) (partitionBlocks initialStaticMemory) = true :=
  ⟨reachable_covers, by decide, by decide⟩

/-- **C1 witness.** The dynamic invariant applied to the initial state. -/
theorem region_coverage_witness :
    covers OS_MEMORY_SIZE TOTAL_MEMORY (dynInitialMemory TOTAL_MEMORY) = true :=
  region_coverage_invariant.1 true FitAlg.first _ DynReachable.init

/-! ## No-adjacent-free and clean-free-block invariants -/

theorem noAdjFree_nil : noAdjFree [] = true := rfl

theorem noAdjFree_singleton (b : Block) : noAdjFree [b] = true := rfl

theorem noAdjFree_cons_cons (b1 b2 : Block) (l : List Block) :
    noAdjFree (b1 :: b2 :: l) = (!(b1.free && b2.free) && noAdjFree (b2 :: l)) := rfl

theorem noAdjFree_tail {b : Block} {l : List Block}
    (h : noAdjFree (b :: l) = true) : noAdjFree l = true := by
  cases l with
  | nil => rfl
  | cons c t =>
    simp only [noAdjFree_cons_cons, Bool.and_eq_true] at h
    exact h.2

/-- Splitting a free block into an occupied head plus any second block
keeps the no-adjacent-free invariant: the left neighbour now borders an
occupied block, and the right neighbour was not free (it bordered a free
block). -/
theorem noAdjFree_split_insert : ∀ (l : List Block) (i : Nat) (b occ rem : Block),
    l.get? i = some b → b.free = true → occ.free = false →
    noAdjFree l = true →
    noAdjFree (l.take i ++ occ :: rem :: l.drop (i + 1)) = true := by
  intro l
  induction l with
  | nil => intro i b occ rem h; exact Option.noConfusion h
  | cons c rest ih =>
    intro i b occ rem hget hb hocc hna
    cases i with
    | zero =>
      rw [List.get?_cons_zero] at hget
      injection hget with hbc
      subst hbc
      simp only [List.take_zero, List.nil_append, List.drop_succ_cons,
        List.drop_zero]
      cases rest with
      | nil => simp [noAdjFree, hocc]
      | cons d rest2 =>
        rw [noAdjFree_cons_cons] at hna
        simp only [Bool.and_eq_true, Bool.not_eq_true'] at hna
        have hd : d.free = false := by
          cases hdf : d.free
          · rfl
          · rw [hb, hdf] at hna; simp at hna
        rw [noAdjFree_cons_cons, noAdjFree_cons_cons]
        simp [hocc, hd, hna.2]
    | succ i =>
      rw [List.get?_cons_succ] at hget
      have hnarest : noAdjFree rest = true := noAdjFree_tail hna
      simp only [List.take_succ_cons, List.cons_append, List.drop_succ_cons]
      have hrec := ih i b occ rem hget hb hocc hnarest
      cases rest with
      | nil => exact Option.noConfusion hget
      | cons d rest2 =>
        cases i with
        | zero =>
          simp only [List.take_zero, List.nil_append, List.drop_succ_cons,
            List.drop_zero] at hrec ⊢
          rw [noAdjFree_cons_cons]
          simp [hocc, hrec]
        | succ i2 =>
          simp only [List.take_succ_cons, List.cons_append,
            List.drop_succ_cons] at hrec ⊢
          rw [noAdjFree_cons_cons]
          rw [noAdjFree_cons_cons] at hna
          simp only [Bool.and_eq_true] at hna ⊢
          exact ⟨hna.1, hrec⟩

/-- Replacing a block by a single occupied block keeps the invariant. -/
theorem noAdjFree_replace_one : ∀ (l : List Block) (i : Nat) (b occ : Block),
    l.get? i = some b → occ.free = false →
    noAdjFree l = true →
    noAdjFree (l.take i ++ occ :: l.drop (i + 1)) = true := by
  intro l
  induction l with
  | nil => intro i b occ h; exact Option.noConfusion h
  | cons c rest ih =>
    intro i b occ hget hocc hna
    cases i with
    | zero =>
      simp only [List.take_zero, List.nil_append, List.drop_succ_cons,
        List.drop_zero]
      cases rest with
      | nil => rfl
      | cons d rest2 =>
        rw [noAdjFree_cons_cons]
        simp [hocc, noAdjFree_tail hna]
    | succ i =>
      rw [List.get?_cons_succ] at hget
      have hnarest : noAdjFree rest = true := noAdjFree_tail hna
      simp only [List.take_succ_cons, List.cons_append, List.drop_succ_cons]
      have hrec := ih i b occ hget hocc hnarest
      cases rest with
      | nil => exact Option.noConfusion hget
      | cons d rest2 =>
        cases i with
        | zero =>
          simp only [List.take_zero, List.nil_append, List.drop_succ_cons,
            List.drop_zero] at hrec ⊢
          rw [noAdjFree_cons_cons]
          simp [hocc, hrec]
        | succ i2 =>
          simp only [List.take_succ_cons, List.cons_append,
            List.drop_succ_cons] at hrec ⊢
          rw [noAdjFree_cons_cons]
          rw [noAdjFree_cons_cons] at hna
          simp only [Bool.and_eq_true] at hna ⊢
          exact ⟨hna.1, hrec⟩

theorem noAdjFree_dynAllocate (fit : FitAlg) (mem : List Block) (p : Process)
    (hna : noAdjFree mem = true) :
    noAdjFree (dynAllocate fit mem p).1 = true := by
  cases hfit : fitIndex fit mem p.size with
  | none => rw [dynAllocate_of_none fit mem p hfit]; exact hna
  | some i =>
    obtain ⟨b, hget, hq⟩ := fitIndex_some fit mem p.size i hfit
    rw [dynAllocate_found fit mem p i b hfit hget]
    by_cases hrem : 0 < b.size - p.size
    · rw [if_pos hrem]
      exact noAdjFree_split_insert mem i b _ _ hget hq.1 rfl hna
    · rw [if_neg hrem]
      exact noAdjFree_replace_one mem i b _ hget rfl hna

theorem FreeClean_dynAllocate (fit : FitAlg) (mem : List Block) (p : Process)
    (h : FreeClean mem) : FreeClean (dynAllocate fit mem p).1 := by
  cases hfit : fitIndex fit mem p.size with
  | none => rw [dynAllocate_of_none fit mem p hfit]; exact h
  | some i =>
    obtain ⟨b, hget, hq⟩ := fitIndex_some fit mem p.size i hfit
    rw [dynAllocate_found fit mem p i b hfit hget]
    intro x hx hxf
    rcases List.mem_append.mp hx with hx | hx
    · exact h x (List.take_subset i mem hx) hxf
    · rcases List.mem_cons.mp hx with hx | hx
      · rw [hx] at hxf; exact Bool.noConfusion hxf
      · by_cases hrem : 0 < b.size - p.size
        · rw [if_pos hrem] at hx
          rcases List.mem_cons.mp hx with hx | hx
          · rw [hx]
          · exact h x (List.drop_subset (i + 1) mem hx) hxf
        · rw [if_neg hrem] at hx
          exact h x (List.drop_subset (i + 1) mem hx) hxf

theorem FreeClean_clearFirstBlock (mem : List Block) (pid : Nat)
    (h : FreeClean mem) : FreeClean (clearFirstBlock mem pid) := by
  induction mem with
  | nil => intro x hx; simp [clearFirstBlock] at hx
  | cons b rest ih =>
    intro x hx hxf
    by_cases hb : b.processId = some pid
    · rw [clearFirstBlock, if_pos hb] at hx
      rcases List.mem_cons.mp hx with hx | hx
      · rw [hx]
      · exact h x (List.mem_cons_of_mem b hx) hxf
    · rw [clearFirstBlock, if_neg hb] at hx
      rcases List.mem_cons.mp hx with hx | hx
      · rw [hx]; exact h b (List.mem_cons_self b rest) (hx ▸ hxf)
      · exact ih (fun y hy => h y (List.mem_cons_of_mem b hy)) x hx hxf

theorem FreeClean_coalesce (l : List Block) (h : FreeClean l) :
    FreeClean (coalesce l) := by
  have key : ∀ n (l : List Block), l.length = n → FreeClean l →
      FreeClean (coalesce l) := by
    intro n
    induction n using Nat.strong_induction_on with
    | _ n ih =>
      intro l hl h
      cases l with
      | nil => simpa [coalesce_nil] using h
      | cons bb1 l2 =>
        cases l2 with
        | nil => simpa [coalesce_single] using h
        | cons bb2 rest =>
          rw [coalesce_cons_cons]
          by_cases hc : (bb1.free && bb2.free) = true
          · rw [if_pos hc]
            refine ih (rest.length + 1) (by simp [← hl])
              ({ bb1 with size := bb1.size + bb2.size } :: rest) rfl ?_
            intro x hx hxf
            rcases List.mem_cons.mp hx with hx | hx
            · rw [hx]; rw [hx] at hxf
              exact h bb1 (by simp) hxf
            · exact h x (by simp [hx]) hxf
          · rw [if_neg hc]
            intro x hx hxf
            rcases List.mem_cons.mp hx with hx | hx
            · rw [hx]; exact h bb1 (by simp) (hx ▸ hxf)
            · refine ih (rest.length + 1) (by simp [← hl]) (bb2 :: rest) rfl
                ?_ x hx hxf
              intro y hy hyf
              exact h y (by simp [List.mem_cons.mp hy]) hyf
  exact key l.length l rfl h

/-- Computation rule for `dynDeallocate` when an owned block exists. -/
theorem dynDeallocate_found (c : Bool) (mem : List Block) (procs : List Process)
    (pid : Nat) (hsome : (mem.find? (fun b => b.processId == some pid)).isSome) :
    dynDeallocate c mem procs pid =
      (if c then coalesce (clearFirstBlock mem pid) else clearFirstBlock mem pid,
       clearProc procs pid) := by
  unfold dynDeallocate
  cases hf : mem.find? (fun b => b.processId == some pid) with
  | none => rw [hf] at hsome; exact absurd hsome (by simp)
  | some v => rfl

theorem FreeClean_dynDeallocate (c : Bool) (mem : List Block)
    (procs : List Process) (pid : Nat) (h : FreeClean mem) :
    FreeClean (dynDeallocate c mem procs pid).1 := by
  unfold dynDeallocate
  cases mem.find? (fun b => b.processId == some pid) with
  | none => exact h
  | some _ =>
    simp only
    cases c with
    | false =>
      rw [if_neg (by simp)]
      exact FreeClean_clearFirstBlock mem pid h
    | true =>
      rw [if_pos rfl]
      exact FreeClean_coalesce _ (FreeClean_clearFirstBlock mem pid h)

/-- Every state reachable with coalescing enabled has no adjacent free
pair, and its free blocks carry no stale owner. -/
theorem reachable_clean (fit : FitAlg) (mem : List Block)
    (h : DynReachable true fit mem) :
    noAdjFree mem = true ∧ FreeClean mem := by
  induction h with
  | init =>
    refine ⟨rfl, ?_⟩
    intro b hb _
    simp only [dynInitialMemory, List.mem_singleton] at hb
    rw [hb]
  | alloc mem p hp hr ih =>
    exact ⟨noAdjFree_dynAllocate fit mem p ih.1, FreeClean_dynAllocate fit mem p ih.2⟩
  | dealloc mem procs pid hr ih =>
    refine ⟨?_, FreeClean_dynDeallocate true mem procs pid ih.2⟩
    unfold dynDeallocate
    cases mem.find? (fun b => b.processId == some pid) with
    | none => exact ih.1
    | some _ =>
      simp only
      rw [if_pos (by trivial)]
      exact noAdjFree_coalesce _
  | coal mem hr ih =>
    exact ⟨noAdjFree_coalesce mem, FreeClean_coalesce mem ih.2⟩

/-! ## Split-then-coalesce round trip (C6) -/

theorem clearFirstBlock_append (l1 l2 : List Block) (pid : Nat)
    (h : ∀ x ∈ l1, x.processId ≠ some pid) :
    clearFirstBlock (l1 ++ l2) pid = l1 ++ clearFirstBlock l2 pid := by
  induction l1 with
  | nil => rfl
  | cons c rest ih =>
    rw [List.cons_append, clearFirstBlock,
      if_neg (h c (List.mem_cons_self c rest))]
    rw [ih fun x hx => h x (List.mem_cons_of_mem c hx)]
    rfl

/-- Core restoration lemma: merging back a freshly freed split pair inside
an otherwise untouched list with no adjacent free pair reproduces the
original list. -/
theorem coalesce_restore : ∀ (l1 : List Block) (b x y : Block) (l2 : List Block),
    noAdjFree (l1 ++ b :: l2) = true → b.free = true →
    x.free = true → y.free = true →
    ({ x with size := x.size + y.size } : Block) = b →
    coalesce (l1 ++ x :: y :: l2) = l1 ++ b :: l2 := by
  intro l1
  induction l1 with
  | nil =>
    intro b x y l2 hna hb hx hy hm
    simp only [List.nil_append] at hna ⊢
    rw [coalesce_cons_cons, if_pos (by simp [hx, hy]), hm]
    exact coalesce_of_noAdjFree _ hna
  | cons c l1' ih =>
    intro b x y l2 hna hb hx hy hm
    rw [List.cons_append] at hna ⊢
    cases l1' with
    | nil =>
      simp only [List.nil_append] at hna ⊢
      rw [noAdjFree_cons_cons] at hna
      simp only [Bool.and_eq_true, Bool.not_eq_true'] at hna
      have hcf : c.free = false := by
        cases hcc : c.free
        · rfl
        · rw [hcc, hb] at hna; simp at hna
      rw [coalesce_cons_cons, if_neg (by simp [hcf])]
      have h9 := ih b x y l2 (by simpa using hna.2) hb hx hy hm
      simp only [List.nil_append] at h9
      rw [h9]
      rfl
    | cons d l1'' =>
      rw [List.cons_append] at hna ⊢
      rw [noAdjFree_cons_cons] at hna
      simp only [Bool.and_eq_true, Bool.not_eq_true'] at hna
      rw [coalesce_cons_cons, if_neg (by simp [hna.1])]
      have h9 := ih b x y l2 (by simpa using hna.2) hb hx hy hm
      rw [List.cons_append] at h9
      rw [h9]
      rfl

/-- **C6 (amended).** In dynamic mode with coalescing enabled, for every
reachable block list and every unallocated process that owns no block,
a successful `allocate` immediately followed by `deallocate` of that
process's id restores the block list exactly. -/
theorem split_coalesce_roundtrip (fit : FitAlg) (mem mem' : List Block)
    (p p' : Process) (procs : List Process)
    (hreach : DynReachable true fit mem)
    (hown : ∀ b ∈ mem, b.processId ≠ some p.id)
    (hpalloc : p.allocated = false)
    (hsucc : dynAllocate fit mem p = (mem', p', true)) :
    (dynDeallocate true mem' procs p.id).1 = mem := by
  obtain ⟨hna, hclean⟩ := reachable_clean fit mem hreach
  cases hfit : fitIndex fit mem p.size with
  | none =>
    rw [dynAllocate_of_none fit mem p hfit] at hsucc
    simp only [Prod.mk.injEq] at hsucc
    exact absurd hsucc.2.2 (by simp)
  | some i =>
    obtain ⟨b, hget, hq⟩ := fitIndex_some fit mem p.size i hfit
    have hbmem : b ∈ mem := List.get?_mem hget
    have hbpid : b.processId = none := hclean b hbmem hq.1
    have hnf := dynAllocate_found fit mem p i b hfit hget
    rw [hnf] at hsucc
    simp only [Prod.mk.injEq] at hsucc
    obtain ⟨hm, -⟩ := hsucc
    subst hm
    have htakeno : ∀ x ∈ mem.take i, x.processId ≠ some p.id :=
      fun x hx => hown x (List.take_subset i mem hx)
    have hdecomp := take_cons_drop mem i b hget
    have hna2 : noAdjFree (mem.take i ++ b :: mem.drop (i + 1)) = true := by
      rw [hdecomp]; exact hna
    by_cases hrem : 0 < b.size - p.size
    · rw [if_pos hrem]
      have hsome : ((mem.take i ++
          { address := b.address, size := p.size, free := false,
            processId := some p.id } ::
          { address := b.address + p.size, size := b.size - p.size,
            free := true, processId := none } :: mem.drop (i + 1)).find?
            (fun bl => bl.processId == some p.id)).isSome := by
        rw [List.find?_isSome]
        exact ⟨{ address := b.address, size := p.size, free := false,
                 processId := some p.id }, by simp, by simp⟩
      rw [dynDeallocate_found true _ procs p.id hsome]
      rw [if_pos (by trivial)]
      rw [clearFirstBlock_append _ _ _ htakeno]
      rw [show clearFirstBlock
          ({ address := b.address, size := p.size, free := false,
             processId := some p.id } ::
           { address := b.address + p.size, size := b.size - p.size,
             free := true, processId := none } :: mem.drop (i + 1)) p.id
          = { address := b.address, size := p.size, free := true,
              processId := none } ::
            { address := b.address + p.size, size := b.size - p.size,
              free := true, processId := none } :: mem.drop (i + 1) from by
        simp [clearFirstBlock]]
      have hmeq : ({ address := b.address,
                     size := p.size + (b.size - p.size), free := true,
                     processId := none } : Block) = b := by
        obtain ⟨ba, bs, bf, bp⟩ := b
        have h1 : p.size + (bs - p.size) = bs := Nat.add_sub_cancel' hq.2
        have h2 : bf = true := hq.1
        have h3 : bp = none := hbpid
        rw [h1, h2, h3]
      have hres := coalesce_restore (mem.take i) b
        { address := b.address, size := p.size, free := true, processId := none }
        { address := b.address + p.size, size := b.size - p.size,
          free := true, processId := none }
        (mem.drop (i + 1)) hna2 hq.1 rfl rfl hmeq
      rw [hres, hdecomp]
    · rw [if_neg hrem]
      have hsz : p.size = b.size := by
        have := hq.2; omega
      have hsome : ((mem.take i ++
          { address := b.address, size := p.size, free := false,
            processId := some p.id } :: mem.drop (i + 1)).find?
            (fun bl => bl.processId == some p.id)).isSome := by
        rw [List.find?_isSome]
        exact ⟨{ address := b.address, size := p.size, free := false,
                 processId := some p.id }, by simp, by simp⟩
      rw [dynDeallocate_found true _ procs p.id hsome]
      rw [if_pos (by trivial)]
      rw [clearFirstBlock_append _ _ _ htakeno]
      rw [show clearFirstBlock
          ({ address := b.address, size := p.size, free := false,
             processId := some p.id } :: mem.drop (i + 1)) p.id
          = { address := b.address, size := p.size, free := true,
              processId := none } :: mem.drop (i + 1) from by
        simp [clearFirstBlock]]
      have hmeq : ({ address := b.address, size := p.size, free := true,
                     processId := none } : Block) = b := by
        obtain ⟨ba, bs, bf, bp⟩ := b
        have h2 : bf = true := hq.1
        have h3 : bp = none := hbpid
        have h1 : p.size = bs := hsz
        rw [h1, h2, h3]
      rw [hmeq, hdecomp]
      exact coalesce_of_noAdjFree mem hna

/-- A reachable dynamic state (coalescing on, first-fit) in which process 0
is flagged unallocated but still owns the block at 3 MiB — left over from a
double allocation followed by a single deallocate. -/
def memStale : List Block :=
  [{ address := 2097152, size := 1048576, free := false, processId := some 1 },
   { address := 3145728, size := 1048576, free := false, processId := some 0 },
   { address := 4194304, size := 12582912, free := true, processId := none }]

/-- **C6 counterexample.** On the reachable state `memStale`, the
unallocated process 0 (which still owns a stale block) allocates
successfully, but the immediate deallocate frees the stale lowest-address
block instead of the new one, so the block list is not restored. -/
theorem roundtrip_cex :
    DynReachable true FitAlg.first memStale ∧
    (⟨0, 1048576, false, none⟩ : Process).allocated = false ∧
    (dynAllocate FitAlg.first memStale ⟨0, 1048576, false, none⟩).2.2 = true ∧
    (dynDeallocate true
        (dynAllocate FitAlg.first memStale ⟨0, 1048576, false, none⟩).1 [] 0).1
      ≠ memStale := by
  refine ⟨?_, rfl, by decide, by decide⟩
  have h0 : DynReachable true FitAlg.first (dynInitialMemory TOTAL_MEMORY) :=
    DynReachable.init
  have h1 := DynReachable.alloc (dynInitialMemory TOTAL_MEMORY)
    ⟨0, 1048576, false, none⟩ (by decide) h0
  rw [show (dynAllocate FitAlg.first (dynInitialMemory TOTAL_MEMORY)
        ⟨0, 1048576, false, none⟩).1
      = [{ address := 2097152, size := 1048576, free := false, processId := some 0 },
         { address := 3145728, size := 13631488, free := true, processId := none }]
    from by decide] at h1
  have h2 := DynReachable.alloc _ ⟨0, 1048576, false, none⟩ (by decide) h1
  rw [show (dynAllocate FitAlg.first
        [{ address := 2097152, size := 1048576, free := false, processId := some 0 },
         { address := 3145728, size := 13631488, free := true, processId := none }]
        ⟨0, 1048576, false, none⟩).1
      = [{ address := 2097152, size := 1048576, free := false, processId := some 0 },
         { address := 3145728, size := 1048576, free := false, processId := some 0 },
         { address := 4194304, size := 12582912, free := true, processId := none }]
    from by decide] at h2
  have h3 := DynReachable.dealloc _ [] 0 h2
  rw [show (dynDeallocate true
        [{ address := 2097152, size := 1048576, free := false, processId := some 0 },
         { address := 3145728, size := 1048576, free := false, processId := some 0 },
         { address := 4194304, size := 12582912, free := true, processId := none }]
        [] 0).1
      = [{ address := 2097152, size := 1048576, free := true, processId := none },
         { address := 3145728, size := 1048576, free := false, processId := some 0 },
         { address := 4194304, size := 12582912, free := true, processId := none }]
    from by decide] at h3
  have h4 := DynReachable.alloc _ ⟨1, 1048576, false, none⟩ (by decide) h3
  rw [show (dynAllocate FitAlg.first
        [{ address := 2097152, size := 1048576, free := true, processId := none },
         { address := 3145728, size := 1048576, free := false, processId := some 0 },
         { address := 4194304, size := 12582912, free := true, processId := none }]
        ⟨1, 1048576, false, none⟩).1 = memStale from by decide] at h4
  exact h4

/-- **C6 witness.** The amended round trip at the initial state with a
fresh 1 MiB process. -/
theorem split_coalesce_roundtrip_witness :
    (dynDeallocate true
        [{ address := 2097152, size := 1048576, free := false, processId := some 0 },
         { address := 3145728, size := 13631488, free := true, processId := none }]
        [] 0).1
      = dynInitialMemory TOTAL_MEMORY := by
  have hsucc : dynAllocate FitAlg.first (dynInitialMemory TOTAL_MEMORY)
      ⟨0, 1048576, false, none⟩
      = ([{ address := 2097152, size := 1048576, free := false, processId := some 0 },
          { address := 3145728, size := 13631488, free := true, processId := none }],
         ⟨0, 1048576, true, some 2097152⟩, true) := by decide
  exact split_coalesce_roundtrip FitAlg.first (dynInitialMemory TOTAL_MEMORY) _
    ⟨0, 1048576, false, none⟩ ⟨0, 1048576, true, some 2097152⟩ []
    DynReachable.init (by decide) rfl hsucc

end MemSim
